import Mathlib

/-!
Verification of the reggie GP regression engine (`reggie/models/gp.py`,
`reggie/kernels/matern.py`, `models/plotting.py`) against its specification.

The development shallowly embeds the Python source: matrices over `ℝ` indexed
by `Fin`, the external dense linear-algebra backend (`mwhutils.linalg`)
represented by its documented contracts, and Python-level calling conventions
(keyword arguments, `is`-identity tests, `None`) embedded explicitly where the
code's behaviour depends on them.
-/

namespace Reggie

/-- Lower-triangular predicate: every entry strictly above the diagonal is 0. -/
def LowerTri {N : ℕ} (L : Matrix (Fin N) (Fin N) ℝ) : Prop :=
  ∀ i j : Fin N, i < j → L i j = 0

/-- Positive-diagonal predicate, as delivered by a Cholesky factorization. -/
def PosDiag {N : ℕ} (L : Matrix (Fin N) (Fin N) ℝ) : Prop :=
  ∀ i : Fin N, 0 < L i i

/-- Embedding of `mwhutils.linalg.add_diagonal`: add a scalar to every
diagonal entry of a square matrix. -/
def addDiag {N : ℕ} (M : Matrix (Fin N) (Fin N) ℝ) (v : ℝ) :
    Matrix (Fin N) (Fin N) ℝ :=
  fun i j => if i = j then M i j + v else M i j

/-- Kernel matrix: entry `(i, j)` is the kernel evaluated between the `i`-th
point of `X1` and the `j`-th point of `X2` (embedding of `get_kernel` for an
abstract kernel `k`). -/
def kernelMatrix {d : ℕ} (k : (Fin d → ℝ) → (Fin d → ℝ) → ℝ) {n1 n2 : ℕ}
    (X1 : Fin n1 → Fin d → ℝ) (X2 : Fin n2 → Fin d → ℝ) :
    Matrix (Fin n1) (Fin n2) ℝ :=
  fun i j => k (X1 i) (X2 j)

/-- Block matrix `[[A, Bᵀ], [B, C]]` over `Fin (n + m)`, as assembled by the
backend's `cholesky_update` contract. -/
def blockMatrix {n m : ℕ} (A : Matrix (Fin n) (Fin n) ℝ)
    (B : Matrix (Fin m) (Fin n) ℝ) (C : Matrix (Fin m) (Fin m) ℝ) :
    Matrix (Fin (n + m)) (Fin (n + m)) ℝ :=
  fun p q =>
    Fin.addCases (motive := fun _ => ℝ)
      (fun i => Fin.addCases (motive := fun _ => ℝ)
        (fun j => A i j) (fun j => B j i) q)
      (fun i => Fin.addCases (motive := fun _ => ℝ)
        (fun j => B i j) (fun j => C i j) q) p

/-- Truncate a sum against row `j` of a lower-triangular matrix: only the
columns `k ≤ j` contribute. -/
theorem sum_tri_trunc {N : ℕ} {L : Matrix (Fin N) (Fin N) ℝ} (t : LowerTri L)
    (j : Fin N) (w : Fin N → ℝ) :
    ∑ k, w k * L j k =
      w j * L j j + ∑ k ∈ Finset.univ.filter (· < j), w k * L j k := by
  have hsub : ∑ k ∈ Finset.univ.filter (· ≤ j), w k * L j k
      = ∑ k, w k * L j k := by
    refine Finset.sum_subset (Finset.subset_univ _) ?_
    intro k _ hk
    have hjk : j < k := by
      simp only [Finset.mem_filter, Finset.mem_univ, true_and] at hk
      exact lt_of_not_le hk
    rw [t j k hjk, mul_zero]
  have hins : Finset.univ.filter (· ≤ j)
      = insert j (Finset.univ.filter (· < j)) := by
    ext k
    simp only [Finset.mem_filter, Finset.mem_univ, true_and, Finset.mem_insert]
    constructor
    · intro hk
      rcases lt_or_eq_of_le hk with h | h
      · exact Or.inr h
      · exact Or.inl h
    · intro hk
      rcases hk with h | h
      · exact le_of_eq h
      · exact le_of_lt h
  have hnot : j ∉ Finset.univ.filter (· < j) := by
    simp [lt_irrefl]
  rw [← hsub, hins, Finset.sum_insert hnot]

/-- Uniqueness of the Cholesky factor: two lower-triangular matrices with
positive diagonals and the same Gram product are equal. -/
theorem cholesky_unique {N : ℕ} {L1 L2 : Matrix (Fin N) (Fin N) ℝ}
    (t1 : LowerTri L1) (t2 : LowerTri L2) (p1 : PosDiag L1) (p2 : PosDiag L2)
    (h : L1 * L1.transpose = L2 * L2.transpose) : L1 = L2 := by
  have entry : ∀ (L : Matrix (Fin N) (Fin N) ℝ) i j,
      (L * L.transpose) i j = ∑ k, L i k * L j k := by
    intro L i j
    simp [Matrix.mul_apply, Matrix.transpose_apply]
  have key : ∀ j : Fin N, (∀ j' : Fin N, j' < j → ∀ i, L1 i j' = L2 i j') →
      ∀ i, L1 i j = L2 i j := by
    intro j ih
    have hsum : ∀ w : Fin N → ℝ,
        ∑ k ∈ Finset.univ.filter (· < j), w k * L1 j k
          = ∑ k ∈ Finset.univ.filter (· < j), w k * L2 j k := by
      intro w
      refine Finset.sum_congr rfl ?_
      intro k hk
      have hkj : k < j := by
        simp only [Finset.mem_filter, Finset.mem_univ, true_and] at hk
        exact hk
      rw [ih k hkj j]
    have hd : L1 j j = L2 j j := by
      have e : (L1 * L1.transpose) j j = (L2 * L2.transpose) j j := by rw [h]
      rw [entry, entry, sum_tri_trunc t1 j (fun k => L1 j k),
        sum_tri_trunc t2 j (fun k => L2 j k)] at e
      have esum : ∑ k ∈ Finset.univ.filter (· < j), L1 j k * L1 j k
          = ∑ k ∈ Finset.univ.filter (· < j), L2 j k * L2 j k := by
        refine Finset.sum_congr rfl ?_
        intro k hk
        have hkj : k < j := by
          simp only [Finset.mem_filter, Finset.mem_univ, true_and] at hk
          exact hk
        rw [ih k hkj j]
      rw [esum] at e
      have e2 : L1 j j * L1 j j = L2 j j * L2 j j := add_right_cancel e
      rcases mul_self_eq_mul_self_iff.mp e2 with h' | h'
      · exact h'
      · exfalso
        have := p1 j
        have := p2 j
        linarith
    intro i
    have e : (L1 * L1.transpose) i j = (L2 * L2.transpose) i j := by rw [h]
    rw [entry, entry, sum_tri_trunc t1 j (fun k => L1 i k),
      sum_tri_trunc t2 j (fun k => L2 i k)] at e
    have esum : ∑ k ∈ Finset.univ.filter (· < j), L1 i k * L1 j k
        = ∑ k ∈ Finset.univ.filter (· < j), L2 i k * L2 j k := by
      refine Finset.sum_congr rfl ?_
      intro k hk
      have hkj : k < j := by
        simp only [Finset.mem_filter, Finset.mem_univ, true_and] at hk
        exact hk
      rw [ih k hkj i, ih k hkj j]
    rw [esum, hd] at e
    have e2 : L1 i j * L2 j j = L2 i j * L2 j j := add_right_cancel e
    exact mul_right_cancel₀ (ne_of_gt (p2 j)) e2
  have main : ∀ v : ℕ, ∀ j : Fin N, j.val ≤ v → ∀ i, L1 i j = L2 i j := by
    intro v
    induction v with
    | zero =>
      intro j hj i
      refine key j ?_ i
      intro j' hj' i'
      exfalso
      have : j'.val < j.val := hj'
      omega
    | succ v ihv =>
      intro j hj i
      refine key j ?_ i
      intro j' hj' i'
      have : j'.val < j.val := hj'
      exact ihv j' (by omega) i'
  ext i j
  exact main j.val j le_rfl i

/-- Forward substitution is injective: a lower-triangular system with nonzero
diagonal has at most one solution. -/
theorem tri_mulVec_inj {N : ℕ} {L : Matrix (Fin N) (Fin N) ℝ}
    (t : LowerTri L) (p : PosDiag L) {x y : Fin N → ℝ}
    (h : L.mulVec x = L.mulVec y) : x = y := by
  have row : ∀ (v : Fin N → ℝ) (i : Fin N),
      L.mulVec v i = L i i * v i + ∑ k ∈ Finset.univ.filter (· < i), v k * L i k := by
    intro v i
    have : L.mulVec v i = ∑ k, v k * L i k := by
      simp [Matrix.mulVec, Matrix.dotProduct, mul_comm]
    rw [this, sum_tri_trunc t i v, mul_comm]
  have key : ∀ i : Fin N, (∀ i' : Fin N, i' < i → x i' = y i') → x i = y i := by
    intro i ih
    have e : L.mulVec x i = L.mulVec y i := by rw [h]
    rw [row, row] at e
    have esum : ∑ k ∈ Finset.univ.filter (· < i), x k * L i k
        = ∑ k ∈ Finset.univ.filter (· < i), y k * L i k := by
      refine Finset.sum_congr rfl ?_
      intro k hk
      have hki : k < i := by
        simp only [Finset.mem_filter, Finset.mem_univ, true_and] at hk
        exact hk
      rw [ih k hki]
    rw [esum] at e
    have e2 : L i i * x i = L i i * y i := add_right_cancel e
    exact mul_left_cancel₀ (ne_of_gt (p i)) e2
  have main : ∀ v : ℕ, ∀ i : Fin N, i.val ≤ v → x i = y i := by
    intro v
    induction v with
    | zero =>
      intro i hi
      refine key i ?_
      intro i' hi'
      exfalso
      have : i'.val < i.val := hi'
      omega
    | succ v ihv =>
      intro i hi
      refine key i ?_
      intro i' hi'
      have : i'.val < i.val := hi'
      exact ihv i' (by omega)
  funext i
  exact main i.val i le_rfl

/-- Appending pointwise residuals commutes with `Fin.append`. -/
theorem append_residual {d n m : ℕ} (μ : (Fin d → ℝ) → ℝ)
    (Xb : Fin n → Fin d → ℝ) (Yb : Fin n → ℝ)
    (Xm : Fin m → Fin d → ℝ) (Ym : Fin m → ℝ) :
    Fin.append (fun i => Yb i - μ (Xb i)) (fun j => Ym j - μ (Xm j))
      = fun p => Fin.append Yb Ym p - μ (Fin.append Xb Xm p) := by
  funext p
  refine Fin.addCases (motive := fun p =>
    Fin.append (fun i => Yb i - μ (Xb i)) (fun j => Ym j - μ (Xm j)) p
      = Fin.append Yb Ym p - μ (Fin.append Xb Xm p)) ?_ ?_ p
  · intro i
    simp [Fin.append_left]
  · intro i
    simp [Fin.append_right]

/-- Gluing the noise-added kernel blocks of a symmetric kernel gives the
noise-added kernel matrix over the appended point sets. -/
theorem blockMatrix_kernel {d n m : ℕ}
    {k : (Fin d → ℝ) → (Fin d → ℝ) → ℝ}
    (hsym : ∀ x y, k x y = k y x) (sn2 : ℝ)
    (Xb : Fin n → Fin d → ℝ) (Xm : Fin m → Fin d → ℝ) :
    blockMatrix (addDiag (kernelMatrix k Xb Xb) sn2) (kernelMatrix k Xm Xb)
        (addDiag (kernelMatrix k Xm Xm) sn2)
      = addDiag (kernelMatrix k (Fin.append Xb Xm) (Fin.append Xb Xm)) sn2 := by
  ext p q
  refine Fin.addCases (motive := fun p =>
    blockMatrix (addDiag (kernelMatrix k Xb Xb) sn2) (kernelMatrix k Xm Xb)
        (addDiag (kernelMatrix k Xm Xm) sn2) p q
      = addDiag (kernelMatrix k (Fin.append Xb Xm) (Fin.append Xb Xm)) sn2 p q)
    ?_ ?_ p
  · intro i
    refine Fin.addCases (motive := fun q =>
      blockMatrix (addDiag (kernelMatrix k Xb Xb) sn2) (kernelMatrix k Xm Xb)
          (addDiag (kernelMatrix k Xm Xm) sn2) (Fin.castAdd m i) q
        = addDiag (kernelMatrix k (Fin.append Xb Xm) (Fin.append Xb Xm)) sn2
            (Fin.castAdd m i) q) ?_ ?_ q
    · intro j
      by_cases hij : i = j
      · subst hij
        simp [blockMatrix, addDiag, kernelMatrix, Fin.append_left]
      · have hne : (Fin.castAdd m i : Fin (n + m)) ≠ Fin.castAdd m j := by
          intro hc
          exact hij (Fin.castAdd_injective _ _ hc)
        simp [blockMatrix, addDiag, kernelMatrix, Fin.append_left, hij, hne]
    · intro j
      have hne : (Fin.castAdd m i : Fin (n + m)) ≠ Fin.natAdd n j := by
        intro hc
        have := congrArg Fin.val hc
        simp only [Fin.coe_castAdd, Fin.coe_natAdd] at this
        omega
      simp [blockMatrix, addDiag, kernelMatrix, Fin.append_left,
        Fin.append_right, hne, hsym (Xm j) (Xb i)]
  · intro i
    refine Fin.addCases (motive := fun q =>
      blockMatrix (addDiag (kernelMatrix k Xb Xb) sn2) (kernelMatrix k Xm Xb)
          (addDiag (kernelMatrix k Xm Xm) sn2) (Fin.natAdd n i) q
        = addDiag (kernelMatrix k (Fin.append Xb Xm) (Fin.append Xb Xm)) sn2
            (Fin.natAdd n i) q) ?_ ?_ q
    · intro j
      have hne : (Fin.natAdd n i : Fin (n + m)) ≠ Fin.castAdd m j := by
        intro hc
        have := congrArg Fin.val hc
        simp only [Fin.coe_castAdd, Fin.coe_natAdd] at this
        omega
      simp [blockMatrix, addDiag, kernelMatrix, Fin.append_left,
        Fin.append_right, hne]
    · intro j
      by_cases hij : i = j
      · subst hij
        simp [blockMatrix, addDiag, kernelMatrix, Fin.append_right]
      · have hne : (Fin.natAdd n i : Fin (n + m)) ≠ Fin.natAdd n j := by
          intro hc
          have := congrArg Fin.val hc
          simp only [Fin.coe_natAdd] at this
          exact hij (Fin.ext (by omega))
        simp [blockMatrix, addDiag, kernelMatrix, Fin.append_right, hij, hne]

/-- Modelled from the spec: contract of `GP._update`'s use of the external
backend (`linalg.cholesky` then `linalg.solve_triangular`, §6). `L` is a
lower-triangular positive-diagonal factor of the noise-added kernel matrix of
the training inputs, and `a` is the whitened residual solving
`L·a = Y − mean(X)`. -/
def UpdateContract {d : ℕ} (k : (Fin d → ℝ) → (Fin d → ℝ) → ℝ) (sn2 : ℝ)
    (μ : (Fin d → ℝ) → ℝ) {n : ℕ} (X : Fin n → Fin d → ℝ) (Y : Fin n → ℝ)
    (L : Matrix (Fin n) (Fin n) ℝ) (a : Fin n → ℝ) : Prop :=
  LowerTri L ∧ PosDiag L ∧
    L * L.transpose = addDiag (kernelMatrix k X X) sn2 ∧
    L.mulVec a = fun i => Y i - μ (X i)

/-- Modelled from the spec: documented contract of the external
`linalg.cholesky_update(L, B, C, a, r)` (§6): given the factor `L` of a matrix
`K = L·Lᵀ` and blocks `B` (cross term) and `C` (noise-added diagonal block),
it extends `L` to a factor of the block matrix `[[K, Bᵀ], [B, C]]` and extends
the whitened residual so that `L'·a'` is the old residual `L·a` followed by
`r`. -/
def CholUpdateOK {n m : ℕ} (L : Matrix (Fin n) (Fin n) ℝ)
    (B : Matrix (Fin m) (Fin n) ℝ) (C : Matrix (Fin m) (Fin m) ℝ)
    (a : Fin n → ℝ) (r : Fin m → ℝ)
    (L2 : Matrix (Fin (n + m)) (Fin (n + m)) ℝ) (a2 : Fin (n + m) → ℝ) :
    Prop :=
  LowerTri L2 ∧ PosDiag L2 ∧
    L2 * L2.transpose = blockMatrix (L * L.transpose) B C ∧
    L2.mulVec a2 = Fin.append (L.mulVec a) r

/-- State of a `GP` instance: training data `(X, Y)` with `ndata = n`, plus
the cached sufficient statistics `(_L, _a)`, which are `None` (here `none`)
before any data are attached. -/
structure GPState (d : ℕ) where
  n : ℕ
  X : Fin n → Fin d → ℝ
  Y : Fin n → ℝ
  cache : Option (Matrix (Fin n) (Fin n) ℝ × (Fin n → ℝ))

/-- The freshly constructed `GP` state: no data, `_L = _a = None`. -/
def GPState.empty (d : ℕ) : GPState d :=
  ⟨0, fun i => i.elim0, fun i => i.elim0, none⟩

/-- What `GP._update` leaves in the cache for given training data: nothing
when `ndata = 0` (the body is skipped), otherwise a factor/residual pair
satisfying the backend contract. -/
def FullCacheOK {d : ℕ} (k : (Fin d → ℝ) → (Fin d → ℝ) → ℝ) (sn2 : ℝ)
    (μ : (Fin d → ℝ) → ℝ) {n : ℕ} (X : Fin n → Fin d → ℝ) (Y : Fin n → ℝ)
    (c : Option (Matrix (Fin n) (Fin n) ℝ × (Fin n → ℝ))) : Prop :=
  (n = 0 → c = none) ∧
    (n ≠ 0 → ∃ L a, c = some (L, a) ∧ UpdateContract k sn2 μ X Y L a)

/-- Modelled from the spec: reachable states of a `GP` instance. The `Model`
base class that dispatches data attachment is not under `src/`; per §4.2 the
transitions are a full refit `_update` after appending a batch (also used for
the first attach and for hyperparameter changes) and the incremental
`_updateinc` on a fitted state. The backend calls satisfy their §6
contracts. -/
inductive Reachable {d : ℕ} (k : (Fin d → ℝ) → (Fin d → ℝ) → ℝ) (sn2 : ℝ)
    (μ : (Fin d → ℝ) → ℝ) : GPState d → Prop
  | init : Reachable k sn2 μ (GPState.empty d)
  | full {s : GPState d} {m : ℕ} (Xm : Fin m → Fin d → ℝ) (Ym : Fin m → ℝ)
      (c : Option (Matrix (Fin (s.n + m)) (Fin (s.n + m)) ℝ ×
        (Fin (s.n + m) → ℝ))) :
      Reachable k sn2 μ s →
      FullCacheOK k sn2 μ (Fin.append s.X Xm) (Fin.append s.Y Ym) c →
      Reachable k sn2 μ ⟨s.n + m, Fin.append s.X Xm, Fin.append s.Y Ym, c⟩
  | inc {s : GPState d} {m : ℕ} (Xm : Fin m → Fin d → ℝ) (Ym : Fin m → ℝ)
      {L0 : Matrix (Fin s.n) (Fin s.n) ℝ} {a0 : Fin s.n → ℝ}
      {L2 : Matrix (Fin (s.n + m)) (Fin (s.n + m)) ℝ} {a2 : Fin (s.n + m) → ℝ} :
      Reachable k sn2 μ s →
      s.cache = some (L0, a0) →
      CholUpdateOK L0 (kernelMatrix k Xm s.X)
        (addDiag (kernelMatrix k Xm Xm) sn2) a0
        (fun j => Ym j - μ (Xm j)) L2 a2 →
      Reachable k sn2 μ ⟨s.n + m, Fin.append s.X Xm, Fin.append s.Y Ym,
        some (L2, a2)⟩

/-- The C7 invariant: the cache is `none` exactly when `ndata = 0`, and a
present cache `(L, a)` always satisfies `L·Lᵀ = K(X, X) + noise·I` and
`L·a = Y − mean(X)` for the current training data. -/
def CacheConsistent {d : ℕ} (k : (Fin d → ℝ) → (Fin d → ℝ) → ℝ) (sn2 : ℝ)
    (μ : (Fin d → ℝ) → ℝ) (s : GPState d) : Prop :=
  (s.cache = none ↔ s.n = 0) ∧
    ∀ L a, s.cache = some (L, a) →
      L * L.transpose = addDiag (kernelMatrix k s.X s.X) sn2 ∧
      L.mulVec a = fun i => s.Y i - μ (s.X i)

/-- Return value of `GP.get_loglike`: a bare scalar when `grad=False`, a
`(lZ, dlZ)` pair when `grad=True`. -/
inductive GLResult (np : ℕ)
  | scalar (x : ℝ)
  | pair (x : ℝ) (g : Fin np → ℝ)

/-- Embedding of `GP.get_loglike` for a state with `ndata = n` and cache
`(L, a)`. The `ndata = 0` early return and the log-likelihood value follow
the source line by line; the gradient vector computed in the `grad=True`
fitted branch (`dlZ`) is taken as a parameter, since no claim constrains its
value there. -/
noncomputable def gpLoglike {n np : ℕ} (L : Matrix (Fin n) (Fin n) ℝ)
    (a : Fin n → ℝ) (dlZ : Fin np → ℝ) (grad : Bool) : GLResult np :=
  if n = 0 then
    if grad then .pair 0 (fun _ => 0) else .scalar 0
  else
    let lZ0 := -0.5 * ∑ i, a i * a i
    let lZ1 := lZ0 - 0.5 * Real.log (2 * Real.pi) * n
    let lZ2 := lZ1 - ∑ i, Real.log (L i i)
    if grad then .pair lZ2 dlZ else .scalar lZ2

/-- Smoothness class of a `Matern` kernel; the constructor validates
`d ∈ {1, 3, 5}`. -/
inductive MaternD
  | d1
  | d3
  | d5
deriving DecidableEq

/-- Embedding of `Matern._f`, the smoothness-dependent polynomial used by
`get_kernel`, exactly as written in the source. -/
noncomputable def maternF : MaternD → ℝ → ℝ
  | .d1, _ => 1
  | .d3, r => 1 + r
  | .d5, r => 1 + r * (1 + r / 3)

/-- Smoothness polynomial as the spec states it (`f_1(r)=1`, `f_3(r)=1+r`,
`f_5(r)=1+r+r²/3`), for comparison with the source's `Matern._f`. -/
noncomputable def maternFSpec : MaternD → ℝ → ℝ
  | .d1, _ => 1
  | .d3, r => 1 + r
  | .d5, r => 1 + r + r ^ 2 / 3

/-- Embedding of `Matern._g`, the polynomial used by the gradient formulas. -/
noncomputable def maternG : MaternD → ℝ → ℝ
  | .d1, _ => 1
  | .d3, r => r
  | .d5, r => r * (1 + r) / 3

/-- Modelled from the spec: `mwhutils._distances.rescale` followed by
`dist(·, ·, metric='euclidean')` — the pairwise Euclidean distance matrix of
the inputs after elementwise division by the lengthscale. -/
noncomputable def rescaledDist {dim n1 n2 : ℕ} (ell : Fin dim → ℝ)
    (X1 : Fin n1 → Fin dim → ℝ) (X2 : Fin n2 → Fin dim → ℝ) :
    Matrix (Fin n1) (Fin n2) ℝ :=
  fun i j => Real.sqrt (∑ kd, (X1 i kd / ell kd - X2 j kd / ell kd) ^ 2)

/-- Embedding of `Matern.get_kernel`: `rho · exp(−D) · f_d(D)` elementwise
on the rescaled distance matrix. An ARD kernel passes its lengthscale vector
as `ell`; an isotropic kernel passes a constant vector. -/
noncomputable def maternGetKernel {dim n1 n2 : ℕ} (d : MaternD) (rho : ℝ)
    (ell : Fin dim → ℝ) (X1 : Fin n1 → Fin dim → ℝ)
    (X2 : Fin n2 → Fin dim → ℝ) : Matrix (Fin n1) (Fin n2) ℝ :=
  fun i j =>
    rho * Real.exp (-rescaledDist ell X1 X2 i j) *
      maternF d (rescaledDist ell X1 X2 i j)

/-- Embedding of the isotropic lengthscale derivative yielded by
`Matern.get_grad` (`M * D / ell` with `M = rho·exp(−D)·g_d(D)`); the source
applies no near-zero guard on this branch. -/
noncomputable def maternGradEllIso {dim n1 n2 : ℕ} (d : MaternD)
    (rho ells : ℝ) (X1 : Fin n1 → Fin dim → ℝ) (X2 : Fin n2 → Fin dim → ℝ) :
    Matrix (Fin n1) (Fin n2) ℝ :=
  fun i j =>
    let D := rescaledDist (fun _ => ells) X1 X2 i j
    rho * Real.exp (-D) * maternG d D * D / ells

/-- Embedding of the ARD lengthscale derivative yielded by `Matern.get_grad`
for dimension `kd`: `np.where(D < 1e-12, 0, M * D_ / D / ell[kd])`, with the
per-dimension contribution `D_` of `mwhutils.dist_foreach` modelled from the
spec as the squared rescaled coordinate distance. -/
noncomputable def maternGradEllArd {dim n1 n2 : ℕ} (d : MaternD) (rho : ℝ)
    (ell : Fin dim → ℝ) (X1 : Fin n1 → Fin dim → ℝ)
    (X2 : Fin n2 → Fin dim → ℝ) (kd : Fin dim) :
    Matrix (Fin n1) (Fin n2) ℝ :=
  fun i j =>
    let D := rescaledDist ell X1 X2 i j
    if D < 1e-12 then 0
    else
      rho * Real.exp (-D) * maternG d D *
        (X1 i kd / ell kd - X2 j kd / ell kd) ^ 2 / D / ell kd

/-- Embedding of `Matern.get_gradx`: the coordinate gradient
`−M · D1 / ell` with `M = np.where(D < 1e-12, 0, rho·exp(−D)·g_d(D)/D)` and
`D1` the matrix of rescaled coordinate differences. -/
noncomputable def maternGradX {dim n1 n2 : ℕ} (d : MaternD) (rho : ℝ)
    (ell : Fin dim → ℝ) (X1 : Fin n1 → Fin dim → ℝ)
    (X2 : Fin n2 → Fin dim → ℝ) (i : Fin n1) (j : Fin n2) (kd : Fin dim) :
    ℝ :=
  let D := rescaledDist ell X1 X2 i j;
  let M := if D < 1e-12 then 0 else rho * Real.exp (-D) * maternG d D / D;
  -M * (X1 i kd / ell kd - X2 j kd / ell kd) / ell kd

/-- Modelled from the spec: the external dense linear-algebra backend
(`mwhutils.linalg`, §6), abstracted as a pair of deterministic functions for
Cholesky factorization and triangular solve. Only determinism is relied on
here; the claims that need the numerical contracts state them as
hypotheses. -/
structure LinalgBackend where
  chol : {n : ℕ} → Matrix (Fin n) (Fin n) ℝ → Matrix (Fin n) (Fin n) ℝ
  solveMat : {n : ℕ} → {κ : Type} → Matrix (Fin n) (Fin n) ℝ →
    Matrix (Fin n) κ ℝ → Matrix (Fin n) κ ℝ

/-- Trivial backend instance, used only to instantiate witnesses. -/
def idBackend : LinalgBackend where
  chol := fun M => M
  solveMat := fun _ B => B

/-- Return value of `GP.get_posterior`: a `(mu, s2)` pair, or the
`(mu, s2, dmu, ds2)` quadruple when `grad=True`. -/
inductive PosteriorResult (q dim : ℕ)
  | pair (mu s2 : Fin q → ℝ)
  | quad (mu s2 : Fin q → ℝ) (dmu ds2 : Fin q → Fin dim → ℝ)

/-- Embedding of the body of `GP.get_posterior`. Parameters: `dk` embeds
`kern.get_dkernel`, `μx` the optional coordinate gradient of the mean
(`hasattr(self._mean, 'get_gradx')`), `kx` embeds `kern.get_gradx`; the
`reshape`/`rollaxis` bookkeeping of the source is represented by indexing the
flattened columns with the product type `Fin q × Fin dim`. -/
noncomputable def gpGetPosterior {dim q : ℕ} (be : LinalgBackend)
    (k : (Fin dim → ℝ) → (Fin dim → ℝ) → ℝ) (dk : (Fin dim → ℝ) → ℝ)
    (μ : (Fin dim → ℝ) → ℝ) (μx : Option ((Fin dim → ℝ) → Fin dim → ℝ))
    (kx : (Fin dim → ℝ) → (Fin dim → ℝ) → Fin dim → ℝ)
    (st : GPState dim) (Xq : Fin q → Fin dim → ℝ) (grad : Bool) :
    PosteriorResult q dim :=
  let dmu0 : Fin q → Fin dim → ℝ := fun j kd => (μx.getD (fun _ _ => 0)) (Xq j) kd;
  match st.cache with
  | none =>
    let mu := fun j => μ (Xq j);
    let s2 := fun j => dk (Xq j);
    if grad then .quad mu s2 dmu0 (fun _ _ => 0) else .pair mu s2
  | some (L, a) =>
    let V := be.solveMat L (kernelMatrix k st.X Xq);
    let mu := fun j => μ (Xq j) + ∑ i, V i j * a i;
    let s2 := fun j => dk (Xq j) - ∑ i, V i j * V i j;
    if grad then
      let dK : Matrix (Fin st.n) (Fin q × Fin dim) ℝ :=
        fun i p => kx (Xq p.1) (st.X i) p.2;
      let dV := be.solveMat L dK;
      let dmu := fun j kd => dmu0 j kd + ∑ i, dV i (j, kd) * a i;
      let ds2 := fun j kd => -(2 * ∑ i, dV i (j, kd) * V i j);
      .quad mu s2 dmu ds2
    else .pair mu s2

/-- Keyword names a caller can use for the second argument of
`get_posterior`; the spec's public surface and `plotting.plot_posterior`
use `predictive`, while `GP.get_posterior` declares `grad`. -/
inductive PosteriorKw
  | grad
  | predictive
deriving DecidableEq

/-- Python-level errors raised before a method body runs. -/
inductive PyCallError
  | unexpectedKeyword
deriving DecidableEq

/-- Embedding of the Python call `model.get_posterior(X, kw=b)` on a `GP`:
keyword binding against the declared signature `get_posterior(self, X,
grad=False)` succeeds only for the keyword `grad`; any other keyword raises
`TypeError` before the body runs. -/
noncomputable def callGetPosterior {dim q : ℕ} (be : LinalgBackend)
    (k : (Fin dim → ℝ) → (Fin dim → ℝ) → ℝ) (dk : (Fin dim → ℝ) → ℝ)
    (μ : (Fin dim → ℝ) → ℝ) (μx : Option ((Fin dim → ℝ) → Fin dim → ℝ))
    (kx : (Fin dim → ℝ) → (Fin dim → ℝ) → Fin dim → ℝ)
    (st : GPState dim) (Xq : Fin q → Fin dim → ℝ) (kw : PosteriorKw)
    (b : Bool) : Except PyCallError (PosteriorResult q dim) :=
  match kw with
  | .grad => .ok (gpGetPosterior be k dk μ μx kx st Xq b)
  | .predictive => .error .unexpectedKeyword

/-- Python value passed for `sample`'s `latent` argument; the source tests it
with the identity check `latent is False`, so the embedding keeps the
distinct falsy objects `False`, `None` and `0` apart. -/
inductive PyLatent
  | pyTrue
  | pyFalse
  | pyNone
  | pyInt (z : ℤ)
deriving DecidableEq

/-- Return value of `GP.sample`: a flat vector when `size is None`, else a
`size × n_query` matrix. -/
inductive SampleResult (q : ℕ)
  | vec (v : Fin q → ℝ)
  | mat (s : ℕ) (M : Fin s → Fin q → ℝ)

/-- Core of `GP.sample` producing the `m × n` sample matrix `f`: posterior
mean/covariance from the cache, `1e-10` jitter, Cholesky, transform of
standard-normal draws (`rng n ↦` the `n`-th draw of the generator), and the
extra noise draws added only under the identity test `latent is False`. -/
noncomputable def gpSampleF {dim q : ℕ} (be : LinalgBackend)
    (k : (Fin dim → ℝ) → (Fin dim → ℝ) → ℝ) (μ : (Fin dim → ℝ) → ℝ)
    (sn2 : ℝ) (st : GPState dim) (Xq : Fin q → Fin dim → ℝ)
    (latent : PyLatent) (rng : ℕ → ℝ) (m : ℕ) : Fin m → Fin q → ℝ :=
  let muSigma : (Fin q → ℝ) × Matrix (Fin q) (Fin q) ℝ :=
    match st.cache with
    | none => (fun j => μ (Xq j), kernelMatrix k Xq Xq)
    | some (L, a) =>
      let V := be.solveMat L (kernelMatrix k st.X Xq);
      (fun j => μ (Xq j) + ∑ i, V i j * a i,
        fun j j2 => kernelMatrix k Xq Xq j j2 - ∑ i, V i j * V i j2);
  let Lq := be.chol (addDiag muSigma.2 1e-10);
  let f : Fin m → Fin q → ℝ :=
    fun i j => muSigma.1 j + ∑ kk : Fin q, rng (i.val * q + kk.val) * Lq j kk;
  if latent = PyLatent.pyFalse then
    fun i j => f i j + Real.sqrt sn2 * rng (m * q + (i.val * q + j.val))
  else f

/-- Embedding of `GP.sample(X, size, latent, rng)`. `rngArg` models the `rng`
argument (`None` or an explicit generator); `globalRng` models the global
stream that `mwhutils.random.rstate` falls back to when `rng is None`. -/
noncomputable def gpSample {dim q : ℕ} (be : LinalgBackend)
    (k : (Fin dim → ℝ) → (Fin dim → ℝ) → ℝ) (μ : (Fin dim → ℝ) → ℝ)
    (sn2 : ℝ) (st : GPState dim) (Xq : Fin q → Fin dim → ℝ)
    (size : Option ℕ) (latent : PyLatent) (rngArg : Option (ℕ → ℝ))
    (globalRng : ℕ → ℝ) : SampleResult q :=
  let rng := rngArg.getD globalRng;
  match size with
  | none => .vec (fun j => gpSampleF be k μ sn2 st Xq latent rng 1 ⟨0, Nat.one_pos⟩ j)
  | some s => .mat s (gpSampleF be k μ sn2 st Xq latent rng s)

/-- Kernel object selected by `BasicGP.__init__`'s chained conditional. -/
inductive BasicGPKernel
  | se
  | matern (d : MaternD)
deriving DecidableEq

/-- Embedding of the chained conditional in `BasicGP.__init__` that picks a
kernel object from the string tag; every unrecognized tag (and `None`)
produces Python `None`. -/
def basicGPSelectKernel (kernel : Option String) : Option BasicGPKernel :=
  match kernel with
  | some "se" => some .se
  | some "matern1" => some (.matern .d1)
  | some "matern3" => some (.matern .d3)
  | some "matern5" => some (.matern .d5)
  | _ => none

/-- Error raised during `BasicGP` construction. -/
inductive PyInitError
  | valueError (msg : String)
deriving DecidableEq

/-- Embedding of the validation step of `BasicGP.__init__`: the source guards
with `if kernel is None` — testing the string argument `kernel`, not the
constructed object `kern` — and otherwise hands `kern` (possibly `None`) to
`GP.__init__`. -/
def basicGPInitKern (kernel : Option String) :
    Except PyInitError (Option BasicGPKernel) :=
  let kern := basicGPSelectKernel kernel;
  if kernel = none then .error (.valueError "Unknown kernel type")
  else .ok kern

theorem lowerTri_one {N : ℕ} : LowerTri (1 : Matrix (Fin N) (Fin N) ℝ) := by
  intro i j hij
  exact Matrix.one_apply_ne (ne_of_lt hij)

theorem posDiag_one {N : ℕ} : PosDiag (1 : Matrix (Fin N) (Fin N) ℝ) := by
  intro i
  simp [Matrix.one_apply_eq]

/-- For the identically-zero kernel, adding unit noise to the kernel matrix
gives the identity; used to build concrete witnesses. -/
theorem addDiag_zero_kernel {n : ℕ} (X : Fin n → Fin 1 → ℝ) :
    addDiag (kernelMatrix (fun _ _ => (0 : ℝ)) X X) 1
      = (1 : Matrix (Fin n) (Fin n) ℝ) := by
  ext i j
  by_cases h : i = j <;> simp [addDiag, kernelMatrix, Matrix.one_apply, h]

/-- Claim C1: for any training set split into a base batch and an appended
batch, the cache `(L, a)` produced by one full `_update` over the combined
set equals the cache produced by `_update` on the base batch followed by
`_updateinc` on the appended batch, assuming the backend's `cholesky_update`
(and `cholesky`/`solve_triangular`) meet their documented contracts; over `ℝ`
the equality is exact. -/
theorem updateinc_refines_update {d n m : ℕ}
    {k : (Fin d → ℝ) → (Fin d → ℝ) → ℝ} (hsym : ∀ x y, k x y = k y x)
    {sn2 : ℝ} {μ : (Fin d → ℝ) → ℝ}
    {Xb : Fin n → Fin d → ℝ} {Yb : Fin n → ℝ}
    {Xm : Fin m → Fin d → ℝ} {Ym : Fin m → ℝ}
    {L0 : Matrix (Fin n) (Fin n) ℝ} {a0 : Fin n → ℝ}
    {L1 : Matrix (Fin (n + m)) (Fin (n + m)) ℝ} {a1 : Fin (n + m) → ℝ}
    {L2 : Matrix (Fin (n + m)) (Fin (n + m)) ℝ} {a2 : Fin (n + m) → ℝ}
    (hbase : UpdateContract k sn2 μ Xb Yb L0 a0)
    (hinc : CholUpdateOK L0 (kernelMatrix k Xm Xb)
      (addDiag (kernelMatrix k Xm Xm) sn2) a0
      (fun j => Ym j - μ (Xm j)) L1 a1)
    (hfull : UpdateContract k sn2 μ (Fin.append Xb Xm) (Fin.append Yb Ym)
      L2 a2) :
    L1 = L2 ∧ a1 = a2 := by
  obtain ⟨t0, p0, hK0, ha0⟩ := hbase
  obtain ⟨t1, p1, hK1, ha1⟩ := hinc
  obtain ⟨t2, p2, hK2, ha2⟩ := hfull
  have hM : L1 * L1.transpose = L2 * L2.transpose := by
    rw [hK1, hK0, blockMatrix_kernel hsym, hK2]
  have hL : L1 = L2 := cholesky_unique t1 t2 p1 p2 hM
  have hv : L2.mulVec a1 = L2.mulVec a2 := by
    rw [← hL, ha1, ha0, append_residual, hL, ha2]
  exact ⟨hL, tri_mulVec_inj t2 p2 hv⟩

theorem updateinc_refines_update_witness :
    (1 : Matrix (Fin (1 + 1)) (Fin (1 + 1)) ℝ) = 1 ∧
      (fun _ : Fin (1 + 1) => (0 : ℝ)) = fun _ => 0 := by
  refine @updateinc_refines_update 1 1 1 (fun _ _ => 0) ?_ 1
    (fun _ => 0) (fun _ _ => 0) (fun _ => 0) (fun _ _ => 0) (fun _ => 0)
    1 (fun _ => 0) 1 (fun _ => 0) 1 (fun _ => 0) ?_ ?_ ?_
  · intro x y
    rfl
  · refine ⟨lowerTri_one, posDiag_one, ?_, ?_⟩
    · rw [Matrix.transpose_one, mul_one, addDiag_zero_kernel]
    · funext i
      simp [Matrix.one_mulVec]
  · refine ⟨lowerTri_one, posDiag_one, ?_, ?_⟩
    · rw [Matrix.transpose_one, mul_one, Matrix.transpose_one, mul_one,
        show (1 : Matrix (Fin 1) (Fin 1) ℝ)
            = addDiag (kernelMatrix (fun _ _ => (0 : ℝ)) (fun _ _ => (0 : ℝ))
              (fun _ _ => (0 : ℝ))) 1 from (addDiag_zero_kernel _).symm,
        blockMatrix_kernel (k := fun _ _ => (0 : ℝ)) (fun _ _ => rfl),
        addDiag_zero_kernel]
    · funext p
      refine Fin.addCases ?_ ?_ p
      · intro i
        rw [Fin.append_left]
        simp [Matrix.one_mulVec]
      · intro i
        rw [Fin.append_right]
        simp [Matrix.one_mulVec]
  · refine ⟨lowerTri_one, posDiag_one, ?_, ?_⟩
    · rw [Matrix.transpose_one, mul_one, addDiag_zero_kernel]
    · funext p
      refine Fin.addCases ?_ ?_ p
      · intro i
        rw [Fin.append_left]
        simp [Matrix.one_mulVec]
      · intro i
        rw [Fin.append_right]
        simp [Matrix.one_mulVec]

/-- Claim C7: in every reachable state of a `GP` instance the cached `L`, `a`
are absent exactly when `ndata = 0`, and when present they satisfy
`L·Lᵀ = K(X, X) + noise·I` and `L·a = Y − mean(X)` for the current training
data; both mutations (`_update`, `_updateinc`) re-establish this, updating
`L` and `a` together. -/
theorem reachable_cache_consistent {d : ℕ}
    {k : (Fin d → ℝ) → (Fin d → ℝ) → ℝ} (hsym : ∀ x y, k x y = k y x)
    {sn2 : ℝ} {μ : (Fin d → ℝ) → ℝ} {s : GPState d}
    (h : Reachable k sn2 μ s) : CacheConsistent k sn2 μ s := by
  induction h with
  | init =>
    refine ⟨by simp [GPState.empty], ?_⟩
    intro L a hca
    simp [GPState.empty] at hca
  | @full s0 m Xm Ym c hr hok ih =>
    obtain ⟨hzero, hpos⟩ := hok
    constructor
    · constructor
      · intro hc
        by_contra hne
        obtain ⟨L, a, hca, _⟩ := hpos hne
        rw [hca] at hc
        exact Option.some_ne_none _ hc
      · intro h0
        exact hzero h0
    · intro L a hca
      have hn : s0.n + m ≠ 0 := by
        intro h0
        rw [hzero h0] at hca
        exact Option.noConfusion hca
      obtain ⟨L2, a2, hca2, hcon⟩ := hpos hn
      rw [hca2] at hca
      obtain ⟨h1, h2⟩ := Prod.mk.inj (Option.some.inj hca)
      subst h1
      subst h2
      exact ⟨hcon.2.2.1, hcon.2.2.2⟩
  | @inc s0 m Xm Ym L0 a0 L2 a2 hr hc0 hok ih =>
    obtain ⟨t2, p2, hK2, ha2⟩ := hok
    obtain ⟨hK0, ha0⟩ := ih.2 _ _ hc0
    have hsn : s0.n ≠ 0 := by
      intro h0
      rw [ih.1.mpr h0] at hc0
      exact Option.noConfusion hc0
    constructor
    · constructor
      · intro hcn
        exact absurd hcn (Option.some_ne_none _)
      · intro h0
        have h1 : s0.n + m = 0 := h0
        exact absurd (by omega : s0.n = 0) hsn
    · intro L a hca
      obtain ⟨h1, h2⟩ := Prod.mk.inj (Option.some.inj hca)
      subst h1
      subst h2
      constructor
      · rw [hK2, hK0, blockMatrix_kernel hsym]
      · rw [ha2, ha0, append_residual]

theorem reachable_cache_consistent_witness :
    CacheConsistent (fun _ _ => (0 : ℝ)) 1 (fun _ => 0) (GPState.empty 1) :=
  @reachable_cache_consistent 1 (fun _ _ => 0) (fun _ _ => rfl) 1 (fun _ => 0)
    (GPState.empty 1) Reachable.init

/-- Claim C2: on a fitted state (`ndata > 0`), `get_loglike(grad=False)`
returns the scalar `−½·aᵀa − ½·n·log(2π) − Σ log(diag(L))` built from the
cached Cholesky factor and whitened residual. -/
theorem get_loglike_value {n np : ℕ} (L : Matrix (Fin n) (Fin n) ℝ)
    (a : Fin n → ℝ) (dlZ : Fin np → ℝ) (h : 0 < n) :
    gpLoglike L a dlZ false =
      .scalar (-(1 / 2) * ∑ i, a i * a i
        - (1 / 2) * n * Real.log (2 * Real.pi) - ∑ i, Real.log (L i i)) := by
  have hne : n ≠ 0 := Nat.pos_iff_ne_zero.mp h
  simp only [gpLoglike, hne, if_false, Bool.false_eq_true]
  congr 1
  ring

theorem get_loglike_value_witness :
    gpLoglike (1 : Matrix (Fin 1) (Fin 1) ℝ) (fun _ => 0)
        (fun i : Fin 0 => i.elim0) false =
      .scalar (-(1 / 2) * ∑ _i : Fin 1, (0 : ℝ) * 0
        - (1 / 2) * ((1 : ℕ) : ℝ) * Real.log (2 * Real.pi)
        - ∑ i : Fin 1, Real.log ((1 : Matrix (Fin 1) (Fin 1) ℝ) i i)) :=
  get_loglike_value 1 (fun _ => 0) (fun i => i.elim0) Nat.one_pos

/-- Claim C3, counterexample: with `ndata = 0` and `grad=False`,
`get_loglike` returns the bare scalar `0.0`, not the `(0.0, zero-vector)`
pair the claim asserts for every value of `grad`. -/
theorem get_loglike_empty_counterexample :
    @gpLoglike 0 1 (fun i _ => i.elim0) (fun i => i.elim0) (fun _ => 0)
      false ≠ GLResult.pair 0 (fun _ => 0) := by
  intro hc
  simp only [gpLoglike, if_pos rfl, Bool.false_eq_true, if_false] at hc
  exact GLResult.noConfusion hc

/-- Claim C3 as amended: with `ndata = 0`, `get_loglike` returns the pair
`(0.0, zero-vector of length nparams)` when `grad=True` and the bare scalar
`0.0` when `grad=False`. -/
theorem get_loglike_empty {n np : ℕ} (L : Matrix (Fin n) (Fin n) ℝ)
    (a : Fin n → ℝ) (dlZ : Fin np → ℝ) (h : n = 0) :
    gpLoglike L a dlZ true = .pair 0 (fun _ => 0) ∧
      gpLoglike L a dlZ false = .scalar 0 := by
  subst h
  constructor <;> simp [gpLoglike]

theorem get_loglike_empty_witness :
    @gpLoglike 0 1 (fun i _ => i.elim0) (fun i => i.elim0) (fun _ => 0) true
        = GLResult.pair 0 (fun _ => 0) ∧
      @gpLoglike 0 1 (fun i _ => i.elim0) (fun i => i.elim0) (fun _ => 0)
        false = GLResult.scalar 0 :=
  get_loglike_empty (fun i _ => i.elim0) (fun i => i.elim0) (fun _ => 0) rfl

/-- Claim C4 (code bug): `BasicGP.__init__` guards with `if kernel is None`
— testing the string tag instead of the constructed kernel object — so for
the unknown tag `'unknown'` no `'Unknown kernel type'` error is raised;
construction proceeds and hands `kern = None` to `GP.__init__`. The guard
fires only when the tag itself is `None`. -/
theorem basicgp_unknown_kernel_check :
    basicGPInitKern (some "unknown") = .ok none ∧
      basicGPSelectKernel (some "unknown") = none ∧
      basicGPInitKern none = .error (.valueError "Unknown kernel type") :=
  ⟨rfl, rfl, rfl⟩

/-- Claim C5: for every Matern kernel (`d ∈ {1,3,5}`, any amplitude and
lengthscale) and all inputs, `get_kernel` returns `rho · exp(−D) · f_d(D)`
elementwise, with `D` the rescaled pairwise Euclidean distance and `f_d` the
spec's polynomials `f_1(r)=1`, `f_3(r)=1+r`, `f_5(r)=1+r+r²/3`; taking
`X2 := X1` covers the omitted-`X2` case. -/
theorem matern_kernel_value {dim n1 n2 : ℕ} (d : MaternD) (rho : ℝ)
    (ell : Fin dim → ℝ) (X1 : Fin n1 → Fin dim → ℝ)
    (X2 : Fin n2 → Fin dim → ℝ) (i : Fin n1) (j : Fin n2) :
    maternGetKernel d rho ell X1 X2 i j =
      rho * Real.exp (-rescaledDist ell X1 X2 i j) *
        maternFSpec d (rescaledDist ell X1 X2 i j) := by
  cases d
  · simp only [maternGetKernel, maternF, maternFSpec]
  · simp only [maternGetKernel, maternF, maternFSpec]
  · simp only [maternGetKernel, maternF, maternFSpec]
    ring

/-- Claim C6, counterexample: at rescaled distance `1e-13 < 1e-12` the
isotropic lengthscale derivative of `get_grad` — which the source leaves
unguarded — is nonzero, refuting the claim that every lengthscale-derivative
entry is exactly 0 below the `1e-12` threshold. -/
theorem matern_grad_near_zero_counterexample :
    rescaledDist (fun _ : Fin 1 => (1 : ℝ))
        (fun (_ : Fin 1) (_ : Fin 1) => (0 : ℝ))
        (fun (_ : Fin 1) (_ : Fin 1) => (1e-13 : ℝ))
        (0 : Fin 1) (0 : Fin 1) < 1e-12 ∧
      maternGradEllIso MaternD.d1 1 1 (fun (_ : Fin 1) (_ : Fin 1) => (0 : ℝ))
        (fun (_ : Fin 1) (_ : Fin 1) => (1e-13 : ℝ))
        (0 : Fin 1) (0 : Fin 1) ≠ 0 := by
  have hD : rescaledDist (fun _ : Fin 1 => (1 : ℝ))
      (fun (_ : Fin 1) (_ : Fin 1) => (0 : ℝ))
      (fun (_ : Fin 1) (_ : Fin 1) => (1e-13 : ℝ))
      (0 : Fin 1) (0 : Fin 1) = 1e-13 := by
    unfold rescaledDist
    rw [Fin.sum_univ_one,
      show ((0 : ℝ) / 1 - 1e-13 / 1) ^ 2 = (1e-13 : ℝ) ^ 2 by norm_num,
      Real.sqrt_sq (by norm_num : (0 : ℝ) ≤ 1e-13)]
  constructor
  · rw [hD]
    norm_num
  · simp only [maternGradEllIso, maternG, hD]
    have hpos : (0 : ℝ) < Real.exp (-(1e-13 : ℝ)) * 1e-13 := by positivity
    intro hc
    rw [one_mul, mul_one, div_one] at hc
    exact ne_of_gt hpos hc

/-- Claim C6 as amended: the guarded branches are exactly zero below the
threshold — every ARD lengthscale-derivative entry of `get_grad` and every
entry of `get_gradx` with rescaled distance `< 1e-12` equals 0 — while the
isotropic lengthscale derivative, which performs no division by `D`, is
exactly 0 at zero distance (for positive distances below the threshold it
equals `rho·exp(−D)·g_d(D)·D/ell`, in general nonzero). -/
theorem matern_grad_guard {dim n1 n2 : ℕ} (d : MaternD) (rho : ℝ)
    (ell : Fin dim → ℝ) (ells : ℝ) (X1 : Fin n1 → Fin dim → ℝ)
    (X2 : Fin n2 → Fin dim → ℝ) (i : Fin n1) (j : Fin n2)
    (h1 : rescaledDist ell X1 X2 i j < 1e-12)
    (h2 : rescaledDist (fun _ => ells) X1 X2 i j = 0) :
    (∀ kd, maternGradEllArd d rho ell X1 X2 kd i j = 0) ∧
      (∀ kd, maternGradX d rho ell X1 X2 i j kd = 0) ∧
      maternGradEllIso d rho ells X1 X2 i j = 0 := by
  refine ⟨?_, ?_, ?_⟩
  · intro kd
    simp [maternGradEllArd, h1]
  · intro kd
    simp [maternGradX, h1]
  · simp [maternGradEllIso, h2]

theorem matern_grad_guard_witness :
    (∀ kd, maternGradEllArd MaternD.d1 1 (fun _ : Fin 1 => (1 : ℝ))
      (fun (_ : Fin 1) (_ : Fin 1) => (0 : ℝ))
      (fun (_ : Fin 1) (_ : Fin 1) => (0 : ℝ)) kd
      (0 : Fin 1) (0 : Fin 1) = 0) ∧
      (∀ kd, maternGradX MaternD.d1 1 (fun _ : Fin 1 => (1 : ℝ))
        (fun (_ : Fin 1) (_ : Fin 1) => (0 : ℝ))
        (fun (_ : Fin 1) (_ : Fin 1) => (0 : ℝ))
        (0 : Fin 1) (0 : Fin 1) kd = 0) ∧
      maternGradEllIso MaternD.d1 1 1
        (fun (_ : Fin 1) (_ : Fin 1) => (0 : ℝ))
        (fun (_ : Fin 1) (_ : Fin 1) => (0 : ℝ))
        (0 : Fin 1) (0 : Fin 1) = 0 := by
  refine matern_grad_guard MaternD.d1 1 (fun _ => 1) 1 (fun _ _ => 0)
    (fun _ _ => 0) 0 0 ?_ ?_
  · simp [rescaledDist]
    norm_num
  · simp [rescaledDist]

/-- Claim C8 (code bug): `GP.get_posterior` declares the keyword `grad`, so
the call `model.get_posterior(X, predictive=b)` — the surface the spec
documents and `plotting.plot_posterior` uses — raises `TypeError` for every
model state and query instead of returning a `(mean, variance)` pair. -/
theorem get_posterior_predictive_kw {dim q : ℕ} (be : LinalgBackend)
    (k : (Fin dim → ℝ) → (Fin dim → ℝ) → ℝ) (dk : (Fin dim → ℝ) → ℝ)
    (μ : (Fin dim → ℝ) → ℝ) (μx : Option ((Fin dim → ℝ) → Fin dim → ℝ))
    (kx : (Fin dim → ℝ) → (Fin dim → ℝ) → Fin dim → ℝ)
    (st : GPState dim) (Xq : Fin q → Fin dim → ℝ) (b : Bool) :
    callGetPosterior be k dk μ μx kx st Xq .predictive b
      = .error .unexpectedKeyword :=
  rfl

/-- Claim C9: `sample`'s randomness comes only from the explicitly supplied
generator: with `rng` supplied, the result is independent of the implicit
global stream, so two calls with identically seeded generators agree. -/
theorem sample_rng_deterministic {dim q : ℕ} (be : LinalgBackend)
    (k : (Fin dim → ℝ) → (Fin dim → ℝ) → ℝ) (μ : (Fin dim → ℝ) → ℝ)
    (sn2 : ℝ) (st : GPState dim) (Xq : Fin q → Fin dim → ℝ)
    (size : Option ℕ) (latent : PyLatent) (r : ℕ → ℝ) (g1 g2 : ℕ → ℝ) :
    gpSample be k μ sn2 st Xq size latent (some r) g1
      = gpSample be k μ sn2 st Xq size latent (some r) g2 :=
  rfl

/-- Claim C10: the source adds observation noise only under the identity
test `latent is False`; any other value of `latent` — including the falsy
values `None` and `0` — yields exactly the noise-free result of
`latent=True`. -/
theorem sample_latent_identity {dim q : ℕ} (be : LinalgBackend)
    (k : (Fin dim → ℝ) → (Fin dim → ℝ) → ℝ) (μ : (Fin dim → ℝ) → ℝ)
    (sn2 : ℝ) (st : GPState dim) (Xq : Fin q → Fin dim → ℝ)
    (size : Option ℕ) (latent : PyLatent) (rngArg : Option (ℕ → ℝ))
    (g : ℕ → ℝ) (h : latent ≠ PyLatent.pyFalse) :
    gpSample be k μ sn2 st Xq size latent rngArg g
      = gpSample be k μ sn2 st Xq size PyLatent.pyTrue rngArg g := by
  cases size <;> cases latent
  any_goals rfl
  all_goals exact absurd rfl h

theorem sample_latent_identity_witness :
    gpSample idBackend (fun _ _ => (0 : ℝ)) (fun _ => 0) 0 (GPState.empty 1)
        (fun (_ : Fin 1) (_ : Fin 1) => (0 : ℝ)) none PyLatent.pyNone
        (some (fun _ => 0)) (fun _ => 0)
      = gpSample idBackend (fun _ _ => (0 : ℝ)) (fun _ => 0) 0
        (GPState.empty 1) (fun (_ : Fin 1) (_ : Fin 1) => (0 : ℝ)) none
        PyLatent.pyTrue (some (fun _ => 0)) (fun _ => 0) :=
  sample_latent_identity idBackend (fun _ _ => 0) (fun _ => 0) 0
    (GPState.empty 1) (fun _ _ => 0) none PyLatent.pyNone
    (some (fun _ => 0)) (fun _ => 0) (by decide)

